import Mathlib

/-!
Verification of the page-range resolver and the target-size recompressor of
`src/server/services/pdfService.js` (functions `splitPDF` and `compressPDF`).

The JavaScript code is shallowly embedded: strings are lists of characters,
JS numbers arising from `parseInt` are `Option Int` (`none` models `NaN`,
whose comparisons are all false), and the external collaborators of the
recompressor (the `sharp` re-encoder and the `pdf-lib` save) are abstract
function parameters.
-/

namespace PdfService

/-- Model of JavaScript `str.split(sep)` for a one-character separator,
operating on the character list of the string.  As in JS,
`"".split(',') = [""]` and separators at the ends produce empty fields. -/
def splitOnChar (sep : Char) : List Char → List (List Char)
  | [] => [[]]
  | c :: rest =>
    if c = sep then [] :: splitOnChar sep rest
    else
      match splitOnChar sep rest with
      | [] => [[c]]
      | t :: ts => (c :: t) :: ts

/-- Model of JavaScript `str.trim()`: drop leading and trailing whitespace. -/
def trimChars (cs : List Char) : List Char :=
  ((cs.dropWhile Char.isWhitespace).reverse.dropWhile Char.isWhitespace).reverse

/-- Value of a list of decimal digit characters, most significant first. -/
def decodeDigits (ds : List Char) : Nat :=
  ds.foldl (fun acc c => acc * 10 + (c.toNat - 48)) 0

/-- Leading decimal-digit run of a character list, as a number; `none` when
the list does not start with a digit. -/
def leadDigits (cs : List Char) : Option Nat :=
  let ds := cs.takeWhile Char.isDigit
  if ds.isEmpty then none else some (decodeDigits ds)

/-- Model of JavaScript `parseInt(s)` on decimal input: skip leading
whitespace, accept an optional sign, then read the longest leading digit
run, ignoring any trailing garbage.  `none` models the `NaN` result (no
digits).  The `0x` hexadecimal autodetection of `parseInt` is not modelled;
no input considered here starts with `0x`. -/
def jsParseInt (cs : List Char) : Option Int :=
  match cs.dropWhile Char.isWhitespace with
  | [] => none
  | c :: rest =>
    if c = '-' then (leadDigits rest).map (fun n => -(n : Int))
    else if c = '+' then (leadDigits rest).map (fun n => (n : Int))
    else (leadDigits (c :: rest)).map (fun n => (n : Int))

/-- Fuelled body of the range loop of `splitPDF` (pdfService.js lines 94-96):
`for (let i = start; i <= end && i < totalPages; i++) { if (i >= 0) push(i) }`.
The fuel is consumed once per loop iteration; `rangeLoop` below supplies
fuel equal to the exact number of iterations of the source loop, and the
lemma `rangeLoop_unfold` proves that the fuelled definition satisfies
precisely the recurrence of the source loop. -/
def rangeLoopAux (e bound : Int) : Nat → Int → List Int
  | 0, _ => []
  | Nat.succ fuel, i =>
    if i ≤ e ∧ i < bound then
      (if 0 ≤ i then [i] else []) ++ rangeLoopAux e bound fuel (i + 1)
    else []

/-- The range loop of `splitPDF`: iterate `i` from `start` while
`i <= e && i < totalPages`, pushing `i` whenever `i >= 0`. -/
def rangeLoop (start e : Int) (totalPages : Nat) : List Int :=
  rangeLoopAux e (totalPages : Int) (min e ((totalPages : Int) - 1) + 1 - start).toNat start

/-- Indices contributed by one comma-separated token of the page expression
(pdfService.js lines 91-102).  A token containing a hyphen is split on the
hyphen; both parts are trimmed, parsed with `parseInt`, decremented, and fed
to the range loop (a `NaN` on either side makes the loop condition false at
once, yielding no indices).  Any other token is trimmed, parsed and
decremented, and kept only when `0 <= pageNum < totalPages` (comparisons
with `NaN` are false, so an unparseable token yields nothing). -/
def tokenIndices (part : List Char) (totalPages : Nat) : List Int :=
  if part.contains '-' then
    match (jsParseInt (trimChars ((splitOnChar '-' part).getD 0 []))).map (fun n => n - 1),
          (jsParseInt (trimChars ((splitOnChar '-' part).getD 1 []))).map (fun n => n - 1) with
    | some s, some e => rangeLoop s e totalPages
    | _, _ => []
  else
    match (jsParseInt (trimChars part)).map (fun n => n - 1) with
    | some p => if 0 ≤ p ∧ p < (totalPages : Int) then [p] else []
    | none => []

/-- The page-range resolver of `splitPDF` (pdfService.js lines 87-107): an
absent `pages` option, and likewise the empty string (falsy in the source's
`if (pages)` test), yield the default selection `[0]`; otherwise the
expression is split on commas and each token contributes its indices in
order. -/
def splitPageIndices (pages : Option String) (totalPages : Nat) : List Int :=
  match pages with
  | none => [0]
  | some s =>
    if s = "" then [0]
    else ((splitOnChar ',' s.toList).map (fun part => tokenIndices part totalPages)).flatten

/-- A string that is a nonempty run of decimal digits, together with its
value.  Used to quantify over the concrete text of well-formed numeric
tokens in theorem statements. -/
def decimalStr (s : String) : Option Nat :=
  if s.toList ≠ [] ∧ s.toList.all Char.isDigit then some (decodeDigits s.toList) else none

/-- Model of JavaScript `Math.round`: round half away from zero for the
nonnegative quantities arising here, i.e. `Math.round(x) = floor(x + 0.5)`. -/
def jsRound (x : Rat) : Int := ⌊x + 1 / 2⌋

/-- An embedded image XObject stream whose `Filter` is `DCTDecode` (a JPEG):
its `Width` and `Height` dictionary entries and its raw contents. -/
structure ImageXObject where
  width : Int
  height : Int
  contents : List Nat
deriving DecidableEq, Repr

/-- An indirect object of the loaded document, as seen by the compression
pass of `compressPDF`: either a raw image stream with `Subtype /Image` and
`Filter /DCTDecode`, or any other object (non-stream, non-image, or an image
with a different filter), which the pass leaves untouched.  The payload of
`other` is an opaque tag. -/
inductive PdfObject where
  | dctImage : ImageXObject → PdfObject
  | other : Nat → PdfObject
deriving DecidableEq, Repr

/-- One iteration of the object loop of `performCompression`
(pdfService.js lines 150-197) at quality `q` and resize ratio `r`.  For a
DCT image the new dimensions are `Math.max(1, Math.round(dim * r))`; the
`sharp` resize-and-re-encode call is the abstract parameter `enc` (its
arguments are the contents, the new width and height, and the quality), and
`none` models a thrown error, in which case the `catch` block leaves the
object unchanged and the loop continues.  On success the object is replaced
by a stream with the re-encoded bytes and updated dimensions.  Non-DCT
objects are not touched. -/
def processObject (enc : List Nat → Int → Int → Int → Option (List Nat))
    (q : Int) (r : Rat) : PdfObject → PdfObject
  | PdfObject.dctImage img =>
    let newWidth := max 1 (jsRound ((img.width : Rat) * r))
    let newHeight := max 1 (jsRound ((img.height : Rat) * r))
    match enc img.contents newWidth newHeight q with
    | some buf => PdfObject.dctImage ⟨newWidth, newHeight, buf⟩
    | none => PdfObject.dctImage img
  | PdfObject.other t => PdfObject.other t

/-- The helper `performCompression(q, r)` of `compressPDF` (pdfService.js
lines 145-208): reload the document from the original input bytes — modelled
by the fixed object list `doc`, identical on every call — transform every
object with `processObject`, strip metadata and save with object streams.
The metadata stripping and the save are the abstract parameter `save`,
mapping the final object list to output bytes. -/
def performCompression (enc : List Nat → Int → Int → Int → Option (List Nat))
    (save : List PdfObject → List Nat) (doc : List PdfObject)
    (q : Int) (r : Rat) : List Nat :=
  save (doc.map (processObject enc q r))

/-- The per-attempt parameter step of the target-size loop (pdfService.js
lines 224-227): `quality -= 15`, `resizeRatio -= 0.15`, then clamp
`quality` below at 10 and `resizeRatio` below at 0.2. -/
def stepParams (q : Int) (r : Rat) : Int × Rat :=
  let q2 := q - 15
  let r2 := r - (15 : Rat) / 100
  (if q2 < 10 then 10 else q2, if r2 < (2 : Rat) / 10 then (2 : Rat) / 10 else r2)

/-- Fuelled body of the target-size loop (pdfService.js lines 218-228):
at most `fuel` further iterations, current parameters `(q, r)`, and `last`
the bytes produced by the previous iteration (returned when the attempt
budget runs out).  Each iteration performs one compression pass; if its
output fits the target the loop breaks with those bytes. -/
def targetLoopAux (perform : Int → Rat → List Nat) (target : Int) :
    Nat → Int → Rat → List Nat → List Nat
  | 0, _, _, last => last
  | Nat.succ fuel, q, r, _ =>
    let bytes := perform q r
    if (bytes.length : Int) ≤ target then bytes
    else targetLoopAux perform target fuel (stepParams q r).1 (stepParams q r).2 bytes

/-- The target-size loop of `compressPDF`: up to 5 attempts starting from
`quality = 70`, `resizeRatio = 0.8` (pdfService.js lines 215-228).  The
initial `[]` stands for the not-yet-assigned `compressedBytes`; it is dead
since the loop always runs at least one iteration. -/
def targetLoop (perform : Int → Rat → List Nat) (target : Int) : List Nat :=
  targetLoopAux perform target 5 70 ((8 : Rat) / 10) []

/-- Trace of the target-size loop: the list of attempts actually made, each
recorded as `(quality, resizeRatio, bytes)`, following exactly the control
flow of `targetLoopAux`. -/
def targetTraceAux (perform : Int → Rat → List Nat) (target : Int) :
    Nat → Int → Rat → List (Int × Rat × List Nat)
  | 0, _, _ => []
  | Nat.succ fuel, q, r =>
    let bytes := perform q r
    if (bytes.length : Int) ≤ target then [(q, r, bytes)]
    else (q, r, bytes) :: targetTraceAux perform target fuel (stepParams q r).1 (stepParams q r).2

/-- Trace of the 5-attempt target-size loop from its fixed starting point. -/
def targetTrace (perform : Int → Rat → List Nat) (target : Int) :
    List (Int × Rat × List Nat) :=
  targetTraceAux perform target 5 70 ((8 : Rat) / 10)

/-- Quality-tier settings of `compressPDF` (pdfService.js lines 133-142):
tier "low" gives `(30, 0.5)`, tier "high" gives `(80, 1.0)`, anything else
falls to the balanced default `(60, 0.75)`. -/
def tierParams (tier : Option String) : Int × Rat :=
  if tier = some "low" then (30, (5 : Rat) / 10)
  else if tier = some "high" then (80, 1)
  else (60, (75 : Rat) / 100)

/-- Computation of `targetSize` (pdfService.js line 130):
`options.targetSize ? parseInt(options.targetSize) * 1024 : null`.  An
absent option and the empty string are falsy and give `null`; otherwise the
kilobyte count is parsed and scaled to bytes.  A `NaN` parse is mapped to
`none` as well: the only use of `targetSize` guards it with the falsy test
`if (targetSize)`, under which `NaN` and `null` behave identically. -/
def parseTargetSize (raw : Option String) : Option Int :=
  match raw with
  | none => none
  | some s => if s = "" then none else (jsParseInt s.toList).map (fun n => n * 1024)

/-- The compression pipeline of `compressPDF` (pdfService.js lines 128-231)
after loading: pick tier parameters, and either run the 5-attempt
target-size loop (when `targetSize` is truthy, i.e. present and nonzero) or
perform a single pass at the tier parameters. -/
def compressPDF (enc : List Nat → Int → Int → Int → Option (List Nat))
    (save : List PdfObject → List Nat) (doc : List PdfObject)
    (tier : Option String) (rawTarget : Option String) : List Nat :=
  let p := tierParams tier
  match parseTargetSize rawTarget with
  | some t =>
    if t = 0 then performCompression enc save doc p.1 p.2
    else targetLoop (performCompression enc save doc) t
  | none => performCompression enc save doc p.1 p.2

/-- Trace of the attempts made by `compressPDF`: the single tier-parameter
pass when no (truthy) target size is given, and the target-loop trace
otherwise. -/
def compressTrace (enc : List Nat → Int → Int → Int → Option (List Nat))
    (save : List PdfObject → List Nat) (doc : List PdfObject)
    (tier : Option String) (rawTarget : Option String) :
    List (Int × Rat × List Nat) :=
  let p := tierParams tier
  match parseTargetSize rawTarget with
  | some t =>
    if t = 0 then [(p.1, p.2, performCompression enc save doc p.1 p.2)]
    else targetTrace (performCompression enc save doc) t
  | none => [(p.1, p.2, performCompression enc save doc p.1 p.2)]

/-- Parameters of the i-th attempt of the target-size loop, starting from
`(70, 0.8)` and stepping with `stepParams`. -/
def paramAt : Nat → Int × Rat
  | 0 => (70, (8 : Rat) / 10)
  | Nat.succ i => stepParams (paramAt i).1 (paramAt i).2

/-! ### Lemmas about the range loop -/

theorem rangeLoopAux_stop (e b : Int) (fuel : Nat) (i : Int)
    (h : ¬(i ≤ e ∧ i < b)) : rangeLoopAux e b fuel i = [] := by
  cases fuel <;> simp [rangeLoopAux, h]

/-- The fuelled range loop, given the exact fuel supplied by `rangeLoop`,
satisfies precisely the recurrence of the source loop
`for (let i = start; i <= end && i < totalPages; i++) { if (i >= 0) push(i) }`:
this is the faithfulness of the fuelled embedding. -/
theorem rangeLoop_unfold (start e : Int) (tp : Nat) :
    rangeLoop start e tp =
      if start ≤ e ∧ start < (tp : Int) then
        (if 0 ≤ start then [start] else []) ++ rangeLoop (start + 1) e tp
      else [] := by
  by_cases h : start ≤ e ∧ start < (tp : Int)
  · unfold rangeLoop
    have hfuel : (min e ((tp : Int) - 1) + 1 - start).toNat
        = (min e ((tp : Int) - 1) + 1 - (start + 1)).toNat + 1 := by
      omega
    rw [hfuel]
    simp [rangeLoopAux, h]
  · rw [if_neg h]
    unfold rangeLoop
    exact rangeLoopAux_stop _ _ _ _ h

theorem mem_rangeLoopAux {e b : Int} {fuel : Nat} {i x : Int}
    (hx : x ∈ rangeLoopAux e b fuel i) : i ≤ x ∧ 0 ≤ x ∧ x ≤ e ∧ x < b := by
  induction fuel generalizing i with
  | zero => simp [rangeLoopAux] at hx
  | succ n ih =>
    simp only [rangeLoopAux] at hx
    by_cases h : i ≤ e ∧ i < b
    · rw [if_pos h, List.mem_append] at hx
      rcases hx with h1 | h2
      · by_cases h0 : 0 ≤ i
        · rw [if_pos h0, List.mem_singleton] at h1
          subst h1; omega
        · rw [if_neg h0] at h1
          exact absurd h1 (List.not_mem_nil x)
      · have := ih h2
        omega
    · rw [if_neg h] at hx
      exact absurd hx (List.not_mem_nil x)

theorem chain_rangeLoopAux (e b : Int) (fuel : Nat) (i : Int) :
    (rangeLoopAux e b fuel i).Chain' (· < ·) := by
  induction fuel generalizing i with
  | zero => simp [rangeLoopAux]
  | succ n ih =>
    simp only [rangeLoopAux]
    by_cases h : i ≤ e ∧ i < b
    · rw [if_pos h]
      by_cases h0 : 0 ≤ i
      · rw [if_pos h0, List.singleton_append, List.chain'_cons']
        refine ⟨fun y hy => ?_, ih (i + 1)⟩
        have hmem : y ∈ rangeLoopAux e b n (i + 1) := List.mem_of_mem_head? hy
        have := mem_rangeLoopAux hmem
        omega
      · rw [if_neg h0, List.nil_append]
        exact ih (i + 1)
    · rw [if_neg h]
      exact List.chain'_nil

theorem rangeLoopAux_eq_range' (e b : Int) :
    ∀ (fuel : Nat) (i : Int), 0 ≤ i → fuel = (min e (b - 1) + 1 - i).toNat →
      rangeLoopAux e b fuel i = (List.range' i.toNat fuel).map Int.ofNat := by
  intro fuel
  induction fuel with
  | zero => intro i _ _; simp [rangeLoopAux]
  | succ n ih =>
    intro i h0 hf
    have hcond : i ≤ e ∧ i < b := by omega
    have htn : (i + 1).toNat = i.toNat + 1 := by omega
    have hrec : n = (min e (b - 1) + 1 - (i + 1)).toNat := by omega
    simp only [rangeLoopAux, if_pos hcond, if_pos h0]
    rw [List.range'_succ, List.map_cons, ih (i + 1) (by omega) hrec, htn]
    simp only [List.singleton_append, Int.ofNat_eq_coe, Int.toNat_of_nonneg h0]

/-- Closed form of the range loop for a nonnegative starting index: the
ascending run of indices from `start` to `min e (totalPages - 1)`. -/
theorem rangeLoop_eq_range' (start e : Int) (tp : Nat) (h0 : 0 ≤ start) :
    rangeLoop start e tp
      = (List.range' start.toNat (min e ((tp : Int) - 1) + 1 - start).toNat).map
          Int.ofNat :=
  rangeLoopAux_eq_range' _ _ _ start h0 rfl

/-! ### Character-class facts used by the token parser -/

theorem digit_ne_char {c : Char} (h : c.isDigit = true) {d : Char}
    (hd : d.isDigit = false) : c ≠ d := by
  rintro rfl
  rw [h] at hd
  exact Bool.noConfusion hd

theorem digit_not_whitespace {c : Char} (h : c.isDigit = true) :
    c.isWhitespace = false := by
  by_contra hne
  have ht : c.isWhitespace = true := by
    cases hw : c.isWhitespace
    · exact absurd hw hne
    · rfl
  simp only [Char.isWhitespace, Bool.or_eq_true, decide_eq_true_eq] at ht
  rcases ht with ((rfl | rfl) | rfl) | rfl <;> exact absurd h (by decide)

theorem trimChars_of_digits {l : List Char} (h : ∀ c ∈ l, c.isDigit = true) :
    trimChars l = l := by
  have hws : ∀ c ∈ l, c.isWhitespace = false := fun c hc => digit_not_whitespace (h c hc)
  have h1 : l.dropWhile Char.isWhitespace = l := by
    cases l with
    | nil => rfl
    | cons c cs => rw [List.dropWhile_cons_of_neg]; simp [hws c (by simp)]
  have h2 : l.reverse.dropWhile Char.isWhitespace = l.reverse := by
    cases hrev : l.reverse with
    | nil => rfl
    | cons c cs =>
      rw [List.dropWhile_cons_of_neg]
      have : c ∈ l.reverse := by rw [hrev]; simp
      simp [hws c (List.mem_reverse.mp this)]
  rw [trimChars, h1, h2, List.reverse_reverse]

/-! ### Lemmas about splitting and numeric parsing -/

theorem splitOnChar_eq_single {sep : Char} {l : List Char} (h : sep ∉ l) :
    splitOnChar sep l = [l] := by
  induction l with
  | nil => rfl
  | cons c cs ih =>
    have hc : ¬c = sep := by rintro rfl; exact h (by simp)
    have hcs : sep ∉ cs := fun hm => h (by simp [hm])
    simp [splitOnChar, hc, ih hcs]

theorem splitOnChar_append {sep : Char} {l1 l2 : List Char} (h : sep ∉ l1) :
    splitOnChar sep (l1 ++ sep :: l2) = l1 :: splitOnChar sep l2 := by
  induction l1 with
  | nil => simp [splitOnChar]
  | cons c cs ih =>
    have hc : ¬c = sep := by rintro rfl; exact h (by simp)
    have hcs : sep ∉ cs := fun hm => h (by simp [hm])
    simp only [List.cons_append, splitOnChar, if_neg hc]
    rw [List.append_eq, ih hcs]

theorem jsParseInt_digits {l : List Char} (hne : l ≠ [])
    (hd : ∀ c ∈ l, c.isDigit = true) :
    jsParseInt l = some (decodeDigits l) := by
  cases l with
  | nil => exact absurd rfl hne
  | cons c cs =>
    have hcdig : c.isDigit = true := hd c (by simp)
    have hdrop : (c :: cs).dropWhile Char.isWhitespace = c :: cs := by
      rw [List.dropWhile_cons_of_neg]
      simp [digit_not_whitespace hcdig]
    have hm : ¬c = '-' := digit_ne_char hcdig (by decide)
    have hp : ¬c = '+' := digit_ne_char hcdig (by decide)
    have htake : (c :: cs).takeWhile Char.isDigit = c :: cs :=
      List.takeWhile_eq_self_iff.mpr hd
    simp only [jsParseInt, hdrop, if_neg hm, if_neg hp, leadDigits, htake]
    simp

/-- Unpacking of `decimalStr`: the witness that a string is a nonempty digit
run with a given value. -/
theorem decimalStr_spec {s : String} {a : Nat} (h : decimalStr s = some a) :
    s.toList ≠ [] ∧ (∀ c ∈ s.toList, c.isDigit = true) ∧ decodeDigits s.toList = a := by
  by_cases hc : s.toList ≠ [] ∧ s.toList.all Char.isDigit
  · refine ⟨hc.1, fun c hcm => List.all_eq_true.mp hc.2 c hcm, ?_⟩
    rw [decimalStr, if_pos hc] at h
    exact Option.some_injective _ h
  · rw [decimalStr, if_neg hc] at h
    exact absurd h (by simp)

/-! ### Characterization of the token parser -/

theorem mem_rangeLoop {start e : Int} {tp : Nat} {x : Int}
    (hx : x ∈ rangeLoop start e tp) : 0 ≤ x ∧ x < (tp : Int) := by
  unfold rangeLoop at hx
  have := mem_rangeLoopAux hx
  exact ⟨this.2.1, this.2.2.2⟩

theorem chain_rangeLoop (start e : Int) (tp : Nat) :
    (rangeLoop start e tp).Chain' (· < ·) :=
  chain_rangeLoopAux _ _ _ _

/-- Every index emitted by a token is in bounds: `0 <= x < totalPages`.
In particular no `NaN` and no out-of-range value survives into the output. -/
theorem mem_tokenIndices {part : List Char} {tp : Nat} {x : Int}
    (hx : x ∈ tokenIndices part tp) : 0 ≤ x ∧ x < (tp : Int) := by
  unfold tokenIndices at hx
  split at hx
  · split at hx
    · exact mem_rangeLoop hx
    · exact absurd hx (List.not_mem_nil x)
  · split at hx
    · split at hx
      · rw [List.mem_singleton] at hx
        subst hx
        assumption
      · exact absurd hx (List.not_mem_nil x)
    · exact absurd hx (List.not_mem_nil x)

theorem tokenIndices_zero (part : List Char) : tokenIndices part 0 = [] :=
  List.eq_nil_iff_forall_not_mem.mpr fun x hx => by
    have h := mem_tokenIndices hx
    simp only [Nat.cast_zero] at h
    omega

/-- Indices within one token are strictly ascending. -/
theorem chain_tokenIndices (part : List Char) (tp : Nat) :
    (tokenIndices part tp).Chain' (· < ·) := by
  unfold tokenIndices
  split
  · split
    · exact chain_rangeLoop _ _ _
    · exact List.chain'_nil
  · split
    · split
      · exact List.chain'_singleton _
      · exact List.chain'_nil
    · exact List.chain'_nil

/-- A plain token whose `parseInt` is `NaN` contributes nothing: the bounds
check `pageNum >= 0 && pageNum < totalPages` is false on `NaN`. -/
theorem tokenIndices_nan_plain {part : List Char} (hc : part.contains '-' = false)
    (h : jsParseInt (trimChars part) = none) (tp : Nat) :
    tokenIndices part tp = [] := by
  simp only [tokenIndices, hc, Bool.false_eq_true, if_false, h, Option.map_none']

/-- A range token one of whose sides parses to `NaN` contributes nothing:
the loop condition `i <= end` (or the initialization) involves `NaN` and is
false at once. -/
theorem tokenIndices_nan_range {part : List Char} (hc : part.contains '-' = true)
    (h : jsParseInt (trimChars ((splitOnChar '-' part).getD 0 [])) = none ∨
         jsParseInt (trimChars ((splitOnChar '-' part).getD 1 [])) = none)
    (tp : Nat) : tokenIndices part tp = [] := by
  simp only [tokenIndices, hc, if_true]
  rcases h with h | h
  · rw [h]
    simp
  · rw [h]
    rcases jsParseInt (trimChars ((splitOnChar '-' part).getD 0 [])) with _ | v <;> simp

/-- With a single comma-free token the resolver reduces to that token. -/
theorem splitPageIndices_single_token {s : String} (hne : s.toList ≠ [])
    (hnc : ',' ∉ s.toList) (tp : Nat) :
    splitPageIndices (some s) tp = tokenIndices s.toList tp := by
  have hs : ¬s = "" := by
    rintro rfl
    exact hne rfl
  simp only [splitPageIndices, if_neg hs, splitOnChar_eq_single hnc, List.map_cons,
    List.map_nil, List.flatten_cons, List.flatten_nil, List.append_nil]

theorem toList_hyphen_append (sa sb : String) :
    (sa ++ "-" ++ sb).toList = sa.toList ++ '-' :: sb.toList := by
  have h1 : (sa ++ "-" ++ sb).toList = sa.toList ++ "-".toList ++ sb.toList := rfl
  rw [h1]
  simp

/-- A well-formed range token reduces to the range loop on the decoded,
decremented bounds. -/
theorem tokenIndices_range_token {da db : List Char} {a b : Nat}
    (hane : da ≠ []) (haD : ∀ c ∈ da, c.isDigit = true) (haV : decodeDigits da = a)
    (hbne : db ≠ []) (hbD : ∀ c ∈ db, c.isDigit = true) (hbV : decodeDigits db = b)
    (tp : Nat) :
    tokenIndices (da ++ '-' :: db) tp = rangeLoop ((a : Int) - 1) ((b : Int) - 1) tp := by
  have hmem : (da ++ '-' :: db).contains '-' = true :=
    List.elem_eq_true_of_mem (by simp)
  have hnd_a : '-' ∉ da := fun hm => absurd (haD '-' hm) (by decide)
  have hnd_b : '-' ∉ db := fun hm => absurd (hbD '-' hm) (by decide)
  have hsplit : splitOnChar '-' (da ++ '-' :: db) = [da, db] := by
    rw [splitOnChar_append hnd_a, splitOnChar_eq_single hnd_b]
  simp only [tokenIndices, hmem, if_true, hsplit, List.getD_cons_zero, List.getD_cons_succ]
  rw [trimChars_of_digits haD, trimChars_of_digits hbD,
    jsParseInt_digits hane haD, jsParseInt_digits hbne hbD, haV, hbV]
  simp

/-- Conversion of the range-loop closed form to 1-based token bounds
`1 <= a`: the emitted indices are `a-1, a, ..., min b totalPages - 1`. -/
theorem rangeLoop_sub_one (a b tp : Nat) (ha : 1 ≤ a) :
    rangeLoop ((a : Int) - 1) ((b : Int) - 1) tp
      = (List.range' (a - 1) (min b tp - (a - 1))).map Int.ofNat := by
  rw [rangeLoop_eq_range' _ _ _ (by omega)]
  have h1 : ((a : Int) - 1).toNat = a - 1 := by omega
  have h2 : (min ((b : Int) - 1) ((tp : Int) - 1) + 1 - ((a : Int) - 1)).toNat
      = min b tp - (a - 1) := by omega
  rw [h1, h2]

/-- Core range-token behavior of the resolver, for any 1-based bounds. -/
theorem splitPageIndices_range_core (sa sb : String) (a b tp : Nat)
    (hA : decimalStr sa = some a) (hB : decimalStr sb = some b) (ha : 1 ≤ a) :
    splitPageIndices (some (sa ++ "-" ++ sb)) tp
      = (List.range' (a - 1) (min b tp - (a - 1))).map Int.ofNat := by
  obtain ⟨hane, haD, haV⟩ := decimalStr_spec hA
  obtain ⟨hbne, hbD, hbV⟩ := decimalStr_spec hB
  have htl := toList_hyphen_append sa sb
  have hnc : ',' ∉ (sa ++ "-" ++ sb).toList := by
    rw [htl]
    intro hm
    rcases List.mem_append.mp hm with hm | hm
    · exact absurd (haD _ hm) (by decide)
    · rcases List.mem_cons.mp hm with hm | hm
      · exact absurd hm (by decide)
      · exact absurd (hbD _ hm) (by decide)
  have hne2 : (sa ++ "-" ++ sb).toList ≠ [] := by
    rw [htl]
    simp
  rw [splitPageIndices_single_token hne2 hnc, htl,
    tokenIndices_range_token hane haD haV hbne hbD hbV,
    rangeLoop_sub_one a b tp ha]

/-! ### Lemmas about the target-size recompression loop -/

/-- Iterated parameter stepping: the parameters reached after `n` steps
from a starting pair. -/
def stepIterate : Nat → Int × Rat → Int × Rat
  | 0, p => p
  | Nat.succ n, p => stepIterate n (stepParams p.1 p.2)

theorem stepParams_fst (q : Int) (r : Rat) :
    (stepParams q r).1 = max 10 (q - 15) := by
  rcases lt_or_le (q - 15) 10 with h | h
  · simp only [stepParams, if_pos h]
    omega
  · simp only [stepParams, if_neg (not_lt.mpr h)]
    omega

theorem stepParams_snd (q : Int) (r : Rat) :
    (stepParams q r).2 = max ((2 : Rat) / 10) (r - 15 / 100) := by
  rcases lt_or_le (r - (15 : Rat) / 100) ((2 : Rat) / 10) with h | h
  · simp only [stepParams, if_pos h]
    rw [max_eq_left (le_of_lt h)]
  · simp only [stepParams, if_neg (not_lt.mpr h)]
    rw [max_eq_right h]

theorem stepIterate_succ_out (n : Nat) (p : Int × Rat) :
    stepIterate (n + 1) p = stepParams (stepIterate n p).1 (stepIterate n p).2 := by
  induction n generalizing p with
  | zero => rfl
  | succ m ih =>
    show stepIterate (m + 1) (stepParams p.1 p.2) = _
    rw [ih (stepParams p.1 p.2)]
    rfl

theorem paramAt_eq_stepIterate (i : Nat) : paramAt i = stepIterate i (70, (8 : Rat) / 10) := by
  induction i with
  | zero => rfl
  | succ n ih =>
    rw [paramAt, ih, stepIterate_succ_out]

theorem targetTraceAux_ne_nil (perform : Int → Rat → List Nat) (target : Int)
    (n : Nat) (q : Int) (r : Rat) (hn : n ≠ 0) :
    targetTraceAux perform target n q r ≠ [] := by
  cases n with
  | zero => exact absurd rfl hn
  | succ m =>
    simp only [targetTraceAux]
    split <;> simp

theorem targetTraceAux_length_le (perform : Int → Rat → List Nat) (target : Int) :
    ∀ (n : Nat) (q : Int) (r : Rat), (targetTraceAux perform target n q r).length ≤ n := by
  intro n
  induction n with
  | zero => intro q r; simp [targetTraceAux]
  | succ m ih =>
    intro q r
    simp only [targetTraceAux]
    split
    · simp
    · simpa using ih _ _

theorem targetTraceAux_length_of_unreach (perform : Int → Rat → List Nat) (target : Int)
    (h : ∀ q r, target < ((perform q r).length : Int)) :
    ∀ (n : Nat) (q : Int) (r : Rat), (targetTraceAux perform target n q r).length = n := by
  intro n
  induction n with
  | zero => intro q r; simp [targetTraceAux]
  | succ m ih =>
    intro q r
    have hfit : ¬((perform q r).length : Int) ≤ target := not_le.mpr (h q r)
    simp only [targetTraceAux, if_neg hfit]
    simpa using ih _ _

theorem getLastD_of_ne_nil {α : Type} {l : List α} (h : l ≠ []) (d d' : α) :
    l.getLastD d = l.getLastD d' := by
  cases l with
  | nil => exact absurd rfl h
  | cons a t => rw [List.getLastD_cons, List.getLastD_cons]

/-- The loop returns exactly the bytes of the last recorded attempt. -/
theorem targetLoopAux_eq_perform_last (perform : Int → Rat → List Nat) (target : Int) :
    ∀ (n : Nat) (q : Int) (r : Rat) (last : List Nat), n ≠ 0 →
      targetLoopAux perform target n q r last
        = perform ((targetTraceAux perform target n q r).getLastD (0, 0, [])).1
            ((targetTraceAux perform target n q r).getLastD (0, 0, [])).2.1 := by
  intro n
  induction n with
  | zero => intro _ _ _ h; exact absurd rfl h
  | succ m ih =>
    intro q r last _
    by_cases hfit : ((perform q r).length : Int) ≤ target
    · simp [targetLoopAux, targetTraceAux, if_pos hfit]
    · rcases Nat.eq_zero_or_pos m with rfl | hm
      · simp [targetLoopAux, targetTraceAux, if_neg hfit]
      · have hne := targetTraceAux_ne_nil perform target m
          (stepParams q r).1 (stepParams q r).2 (by omega)
        simp only [targetLoopAux, targetTraceAux, if_neg hfit, List.getLastD_cons]
        rw [ih _ _ _ (by omega), getLastD_of_ne_nil hne (q, r, perform q r) (0, 0, [])]

/-- Each recorded attempt's bytes are one compression pass at that
attempt's parameters. -/
theorem targetTraceAux_bytes (perform : Int → Rat → List Nat) (target : Int) :
    ∀ (n : Nat) (q : Int) (r : Rat), ∀ x ∈ targetTraceAux perform target n q r,
      x.2.2 = perform x.1 x.2.1 := by
  intro n
  induction n with
  | zero => intro q r x hx; simp [targetTraceAux] at hx
  | succ m ih =>
    intro q r x hx
    simp only [targetTraceAux] at hx
    split at hx
    · rw [List.mem_singleton] at hx
      subst hx
      rfl
    · rcases List.mem_cons.mp hx with rfl | hx
      · rfl
      · exact ih _ _ x hx

/-- The parameters of the i-th recorded attempt are the i-th iterate of the
step function from the loop's starting parameters. -/
theorem targetTraceAux_params (perform : Int → Rat → List Nat) (target : Int) :
    ∀ (n : Nat) (q : Int) (r : Rat) (i : Nat),
      i < (targetTraceAux perform target n q r).length →
      (((targetTraceAux perform target n q r).getD i (0, 0, [])).1,
       ((targetTraceAux perform target n q r).getD i (0, 0, [])).2.1)
        = stepIterate i (q, r) := by
  intro n
  induction n with
  | zero => intro q r i hi; simp [targetTraceAux] at hi
  | succ m ih =>
    intro q r i hi
    simp only [targetTraceAux] at hi ⊢
    split at hi
    · rw [List.length_singleton] at hi
      interval_cases i
      simp_all [targetTraceAux, stepIterate]
    · rename_i hfit
      rw [if_neg hfit]
      cases i with
      | zero => simp [stepIterate]
      | succ j =>
        rw [List.length_cons] at hi
        simp only [List.getD_cons_succ]
        have := ih (stepParams q r).1 (stepParams q r).2 j (by omega)
        rw [this]
        rfl

/-- Quality parameter of the i-th attempt of the target-size loop. -/
def attemptQ (perform : Int → Rat → List Nat) (target : Int) (i : Nat) : Int :=
  ((targetTrace perform target).getD i (0, 0, [])).1

/-- Resize-ratio parameter of the i-th attempt of the target-size loop. -/
def attemptR (perform : Int → Rat → List Nat) (target : Int) (i : Nat) : Rat :=
  ((targetTrace perform target).getD i (0, 0, [])).2.1

theorem attempt_params_eq (perform : Int → Rat → List Nat) (target : Int) (i : Nat)
    (hi : i < (targetTrace perform target).length) :
    attemptQ perform target i = (paramAt i).1 ∧ attemptR perform target i = (paramAt i).2 := by
  have h := targetTraceAux_params perform target 5 70 ((8 : Rat) / 10) i hi
  rw [paramAt_eq_stepIterate]
  exact ⟨congrArg Prod.fst h, congrArg Prod.snd h⟩

theorem paramAt_bounds (i : Nat) :
    10 ≤ (paramAt i).1 ∧ (paramAt i).1 ≤ 70 ∧
    (2 : Rat) / 10 ≤ (paramAt i).2 ∧ (paramAt i).2 ≤ (8 : Rat) / 10 := by
  induction i with
  | zero =>
    refine ⟨by norm_num [paramAt], by norm_num [paramAt], by norm_num [paramAt],
      by norm_num [paramAt]⟩
  | succ n ih =>
    obtain ⟨h1, h2, h3, h4⟩ := ih
    have hq : (paramAt (n + 1)).1 = max 10 ((paramAt n).1 - 15) := by
      rw [paramAt, stepParams_fst]
    have hr : (paramAt (n + 1)).2 = max ((2 : Rat) / 10) ((paramAt n).2 - 15 / 100) := by
      rw [paramAt, stepParams_snd]
    refine ⟨?_, ?_, ?_, ?_⟩
    · rw [hq]; exact le_max_left _ _
    · rw [hq]; exact max_le (by norm_num) (by omega)
    · rw [hr]; exact le_max_left _ _
    · rw [hr]; exact max_le (by norm_num) (by linarith)

theorem getLastD_mem {α : Type} : ∀ {l : List α}, l ≠ [] → ∀ (d : α), l.getLastD d ∈ l
  | [], h, _ => absurd rfl h
  | [_], _, _ => by simp [List.getLastD_cons]
  | a :: b :: t, _, d => by
    rw [List.getLastD_cons]
    exact List.mem_cons_of_mem a (getLastD_mem (by simp) a)

/-- Exhausting the budget on an unreachable target: the loop runs all its
iterations and returns the pass at the parameters reached after `n - 1`
steps. -/
theorem targetLoopAux_unreach (perform : Int → Rat → List Nat) (target : Int)
    (h : ∀ q r, target < ((perform q r).length : Int)) :
    ∀ (n : Nat) (q : Int) (r : Rat) (last : List Nat), n ≠ 0 →
      targetLoopAux perform target n q r last
        = perform (stepIterate (n - 1) (q, r)).1 (stepIterate (n - 1) (q, r)).2 := by
  intro n
  induction n with
  | zero => intro _ _ _ h0; exact absurd rfl h0
  | succ m ih =>
    intro q r last _
    have hfit : ¬((perform q r).length : Int) ≤ target := not_le.mpr (h q r)
    simp only [targetLoopAux, if_neg hfit]
    rcases Nat.eq_zero_or_pos m with rfl | hm
    · simp [targetLoopAux, stepIterate]
    · obtain ⟨k, rfl⟩ : ∃ k, m = k + 1 := ⟨m - 1, by omega⟩
      rw [ih _ _ _ (by omega)]
      rfl

/-! ### Claims C5-C10: the target-size recompressor -/

/-- C5, confirmed: the target-size loop makes between 1 and 5 attempts and
always terminates with the last attempt's bytes — in particular, on an
unreachable target (every pass larger than the target) it makes exactly 5
attempts and returns the floor-parameter pass `perform 10 0.2`, rather than
erroring or looping. -/
theorem claim5_attempt_budget (perform : Int → Rat → List Nat) (target : Int) :
    1 ≤ (targetTrace perform target).length ∧
    (targetTrace perform target).length ≤ 5 ∧
    targetLoop perform target = ((targetTrace perform target).getLastD (0, 0, [])).2.2 ∧
    ((∀ q r, target < ((perform q r).length : Int)) →
      (targetTrace perform target).length = 5 ∧
      targetLoop perform target = perform 10 ((2 : Rat) / 10)) := by
  have hne : targetTrace perform target ≠ [] :=
    targetTraceAux_ne_nil perform target 5 70 ((8 : Rat) / 10) (by omega)
  refine ⟨List.length_pos.mpr hne, targetTraceAux_length_le perform target 5 70 _, ?_, ?_⟩
  · simp only [targetLoop, targetTrace]
    have hneA : targetTraceAux perform target 5 70 ((8 : Rat) / 10) ≠ [] :=
      targetTraceAux_ne_nil perform target 5 70 _ (by omega)
    have hmem := getLastD_mem hneA (0, 0, [])
    have hbytes := targetTraceAux_bytes perform target 5 70 ((8 : Rat) / 10) _ hmem
    rw [targetLoopAux_eq_perform_last perform target 5 70 ((8 : Rat) / 10) [] (by omega), ← hbytes]
  · intro hunreach
    refine ⟨targetTraceAux_length_of_unreach perform target hunreach 5 70 _, ?_⟩
    rw [targetLoop, targetLoopAux_unreach perform target hunreach 5 70 ((8 : Rat) / 10) [] (by omega)]
    norm_num [stepIterate, stepParams]

/-- C5, witness: a one-byte pass against target 0 (unreachable) makes 5
attempts and returns that pass's bytes. -/
theorem claim5_attempt_budget_witness :
    (targetTrace (fun _ _ => [0]) 0).length = 5 ∧ targetLoop (fun _ _ => [0]) 0 = [0] := by
  have h := (claim5_attempt_budget (fun _ _ => [0]) 0).2.2.2 (fun q r => by norm_num)
  exact ⟨h.1, h.2⟩

/-- C6, confirmed: across the attempts of the target-size loop the
parameters follow the fixed schedule: `quality` next = `max 10 (q - 15)` and
`resizeRatio` next = `max 0.2 (r - 0.15)`, hence component-wise decreasing,
strictly while above the floors, pinned at the floors once reached, with
`quality` always in `[10, 100]` and `resizeRatio` always in `[0.2, 1]`. -/
theorem claim6_param_schedule (perform : Int → Rat → List Nat) (target : Int) (i : Nat) :
    (i < (targetTrace perform target).length →
      10 ≤ attemptQ perform target i ∧ attemptQ perform target i ≤ 100 ∧
      (2 : Rat) / 10 ≤ attemptR perform target i ∧ attemptR perform target i ≤ 1) ∧
    (i + 1 < (targetTrace perform target).length →
      attemptQ perform target (i + 1) = max 10 (attemptQ perform target i - 15) ∧
      attemptR perform target (i + 1)
        = max ((2 : Rat) / 10) (attemptR perform target i - 15 / 100) ∧
      attemptQ perform target (i + 1) ≤ attemptQ perform target i ∧
      attemptR perform target (i + 1) ≤ attemptR perform target i ∧
      (10 < attemptQ perform target i →
        attemptQ perform target (i + 1) < attemptQ perform target i) ∧
      (attemptQ perform target i = 10 → attemptQ perform target (i + 1) = 10) ∧
      ((2 : Rat) / 10 < attemptR perform target i →
        attemptR perform target (i + 1) < attemptR perform target i) ∧
      (attemptR perform target i = (2 : Rat) / 10 →
        attemptR perform target (i + 1) = (2 : Rat) / 10)) := by
  constructor
  · intro hi
    obtain ⟨hq, hr⟩ := attempt_params_eq perform target i hi
    obtain ⟨b1, b2, b3, b4⟩ := paramAt_bounds i
    rw [hq, hr]
    exact ⟨b1, by omega, b3, by linarith⟩
  · intro hi1
    have hi : i < (targetTrace perform target).length := by omega
    obtain ⟨hq, hr⟩ := attempt_params_eq perform target i hi
    obtain ⟨hq1, hr1⟩ := attempt_params_eq perform target (i + 1) hi1
    obtain ⟨b1, b2, b3, b4⟩ := paramAt_bounds i
    have hstepq : (paramAt (i + 1)).1 = max 10 ((paramAt i).1 - 15) := by
      rw [paramAt, stepParams_fst]
    have hstepr : (paramAt (i + 1)).2 = max ((2 : Rat) / 10) ((paramAt i).2 - 15 / 100) := by
      rw [paramAt, stepParams_snd]
    rw [hq, hr, hq1, hr1, hstepq, hstepr]
    refine ⟨rfl, rfl, max_le (by omega) (by omega), max_le b3 (by linarith), ?_, ?_, ?_, ?_⟩
    · intro hgt
      exact max_lt (by omega) (by omega)
    · intro heq
      rw [heq]
      omega
    · intro hgt
      exact max_lt hgt (by linarith)
    · intro heq
      rw [heq]
      exact max_eq_left (by norm_num)

/-- C6, witness: the schedule theorem applied to the first two attempts of a
concrete 5-attempt run. -/
theorem claim6_param_schedule_witness :
    10 ≤ attemptQ (fun _ _ => [0, 0]) 1 0 ∧
    attemptQ (fun _ _ => [0, 0]) 1 1 ≤ attemptQ (fun _ _ => [0, 0]) 1 0 :=
  ⟨((claim6_param_schedule (fun _ _ => [0, 0]) 1 0).1 (by decide)).1,
   ((claim6_param_schedule (fun _ _ => [0, 0]) 1 0).2 (by decide)).2.2.1⟩

theorem targetTrace_head_params (perform : Int → Rat → List Nat) (target : Int) :
    attemptQ perform target 0 = 70 ∧ attemptR perform target 0 = (8 : Rat) / 10 := by
  have hne : targetTrace perform target ≠ [] :=
    targetTraceAux_ne_nil perform target 5 70 ((8 : Rat) / 10) (by omega)
  have h := attempt_params_eq perform target 0 (List.length_pos.mpr hne)
  simpa [paramAt] using h

/-- C7, confirmed: whenever a (truthy) target size is requested,
`compressPDF` runs the target-size loop, whose first attempt uses
`quality = 70` and `resizeRatio = 0.8`; the caller-supplied quality tier is
ignored — the result and the whole attempt trace are independent of it. -/
theorem claim7_fixed_start (enc : List Nat → Int → Int → Int → Option (List Nat))
    (save : List PdfObject → List Nat) (doc : List PdfObject)
    (tier tier2 : Option String) (raw : Option String) (t : Int)
    (hparse : parseTargetSize raw = some t) (ht : t ≠ 0) :
    attemptQ (performCompression enc save doc) t 0 = 70 ∧
    attemptR (performCompression enc save doc) t 0 = (8 : Rat) / 10 ∧
    compressPDF enc save doc tier raw = targetLoop (performCompression enc save doc) t ∧
    compressPDF enc save doc tier raw = compressPDF enc save doc tier2 raw ∧
    compressTrace enc save doc tier raw = compressTrace enc save doc tier2 raw := by
  have hhead := targetTrace_head_params (performCompression enc save doc) t
  have hbranch : ∀ tr : Option String,
      compressPDF enc save doc tr raw = targetLoop (performCompression enc save doc) t := by
    intro tr
    simp only [compressPDF, hparse, if_neg ht]
  have hbranch2 : ∀ tr : Option String,
      compressTrace enc save doc tr raw = targetTrace (performCompression enc save doc) t := by
    intro tr
    simp only [compressTrace, hparse, if_neg ht]
  exact ⟨hhead.1, hhead.2, hbranch tier, by rw [hbranch tier, hbranch tier2],
    by rw [hbranch2 tier, hbranch2 tier2]⟩

/-- C7, witness: with target "100" KB the first-attempt quality is 70 and
the tiers "low" and "high" give identical output. -/
theorem claim7_fixed_start_witness :
    attemptQ (performCompression (fun _ _ _ _ => none) (fun _ => []) []) 102400 0 = 70 ∧
    compressPDF (fun _ _ _ _ => none) (fun _ => []) [] (some "low") (some "100")
      = compressPDF (fun _ _ _ _ => none) (fun _ => []) [] (some "high") (some "100") := by
  have h := claim7_fixed_start (fun _ _ _ _ => none) (fun _ => []) [] (some "low") (some "high")
    (some "100") 102400 (by decide) (by decide)
  exact ⟨h.1, h.2.2.2.1⟩

/-- C8, confirmed: when the re-encoder fails on one embedded image
(`enc` returns `none`, modelling the thrown error caught by the source's
`try/catch`), that image passes through unchanged while every other object
is still processed, and the attempt still produces output bytes
(`save` of the processed list). -/
theorem claim8_skip_failed_image (enc : List Nat → Int → Int → Int → Option (List Nat))
    (save : List PdfObject → List Nat) (q : Int) (r : Rat)
    (pre post : List PdfObject) (img : ImageXObject)
    (hfail : enc img.contents (max 1 (jsRound ((img.width : Rat) * r)))
        (max 1 (jsRound ((img.height : Rat) * r))) q = none) :
    performCompression enc save (pre ++ PdfObject.dctImage img :: post) q r
      = save (pre.map (processObject enc q r)
          ++ PdfObject.dctImage img :: post.map (processObject enc q r)) := by
  unfold performCompression
  rw [List.map_append, List.map_cons]
  have himg : processObject enc q r (PdfObject.dctImage img) = PdfObject.dctImage img := by
    simp only [processObject, hfail]
  rw [himg]

/-- C8, witness: a failing encoder on the middle image of a three-object
document still yields output bytes covering all three objects. -/
theorem claim8_skip_failed_image_witness :
    performCompression (fun _ _ _ _ => none) (fun l => [l.length])
        ([PdfObject.other 0] ++ PdfObject.dctImage ⟨1, 1, []⟩ :: [PdfObject.other 1])
        30 ((5 : Rat) / 10)
      = [3] := by
  have h := claim8_skip_failed_image (fun _ _ _ _ => none) (fun l => [l.length]) 30
    ((5 : Rat) / 10) [PdfObject.other 0] [PdfObject.other 1] ⟨1, 1, []⟩ rfl
  rw [h]
  rfl

/-- C9, confirmed: quality tier "low" with no target size performs exactly
one compression pass at `quality = 30`, `resizeRatio = 0.5`; each eligible
image is re-encoded at dimensions `max 1 (round(dim * ratio))`, so a
1000×1000 image becomes 500×500. -/
theorem claim9_low_tier_single_pass (enc : List Nat → Int → Int → Int → Option (List Nat))
    (save : List PdfObject → List Nat) (doc : List PdfObject) :
    compressTrace enc save doc (some "low") none
      = [(30, (5 : Rat) / 10, performCompression enc save doc 30 ((5 : Rat) / 10))] ∧
    compressPDF enc save doc (some "low") none
      = performCompression enc save doc 30 ((5 : Rat) / 10) ∧
    (∀ (w h : Int) (contents buf : List Nat),
      enc contents (max 1 (jsRound ((w : Rat) * ((5 : Rat) / 10))))
          (max 1 (jsRound ((h : Rat) * ((5 : Rat) / 10)))) 30 = some buf →
      processObject enc 30 ((5 : Rat) / 10) (PdfObject.dctImage ⟨w, h, contents⟩)
        = PdfObject.dctImage ⟨max 1 (jsRound ((w : Rat) * ((5 : Rat) / 10))),
            max 1 (jsRound ((h : Rat) * ((5 : Rat) / 10))), buf⟩) ∧
    (∀ (contents buf : List Nat), enc contents 500 500 30 = some buf →
      processObject enc 30 ((5 : Rat) / 10) (PdfObject.dctImage ⟨1000, 1000, contents⟩)
        = PdfObject.dctImage ⟨500, 500, buf⟩) := by
  have hdim : max 1 (jsRound (((1000 : Int) : Rat) * ((5 : Rat) / 10))) = 500 := by
    have : jsRound (((1000 : Int) : Rat) * ((5 : Rat) / 10)) = 500 := by
      rw [jsRound]
      norm_num
    rw [this]
    norm_num
  refine ⟨?_, ?_, ?_, ?_⟩
  · simp [compressTrace, parseTargetSize, tierParams]
  · simp [compressPDF, parseTargetSize, tierParams]
  · intro w h contents buf henc
    simp only [processObject, henc]
  · intro contents buf henc
    simp only [processObject]
    rw [show ((⟨1000, 1000, contents⟩ : ImageXObject).width : Rat) = ((1000 : Int) : Rat) from rfl,
      show ((⟨1000, 1000, contents⟩ : ImageXObject).height : Rat) = ((1000 : Int) : Rat) from rfl,
      hdim]
    rw [henc]

/-- C9, witness: the single-pass and dimension facts at a concrete encoder. -/
theorem claim9_low_tier_single_pass_witness :
    processObject (fun _ _ _ _ => some [1]) 30 ((5 : Rat) / 10)
        (PdfObject.dctImage ⟨1000, 1000, []⟩)
      = PdfObject.dctImage ⟨500, 500, [1]⟩ :=
  (claim9_low_tier_single_pass (fun _ _ _ _ => some [1]) (fun _ => []) []).2.2.2 [] [1] rfl

/-- C10, confirmed: every attempt of the target-size loop re-runs
`performCompression` on the same original document (the source reloads from
the original `pdfBytes` on each call), so attempts do not compound: the
bytes returned by the loop equal a single compression pass of the original
document at the final attempt's parameters. -/
theorem claim10_no_compounding (enc : List Nat → Int → Int → Int → Option (List Nat))
    (save : List PdfObject → List Nat) (doc : List PdfObject) (target : Int) :
    targetLoop (performCompression enc save doc) target
      = performCompression enc save doc
          ((targetTrace (performCompression enc save doc) target).getLastD (0, 0, [])).1
          ((targetTrace (performCompression enc save doc) target).getLastD (0, 0, [])).2.1 := by
  simp only [targetLoop, targetTrace]
  exact targetLoopAux_eq_perform_last (performCompression enc save doc) target 5 70 _ [] (by omega)

/-! ### Claims C1-C4: the page-range resolver -/

/-- C1, counterexample: on the expression "abc,2" (and "abc" alone) the
resolver returns a normal index sequence with the malformed token silently
dropped — it does not signal a malformed-input error. -/
theorem claim1_counterexample :
    splitPageIndices (some "abc,2") 5 = [1] ∧ splitPageIndices (some "abc") 5 = [] := by
  exact ⟨by decide, by decide⟩

/-- C1, amended: a token whose numeric parse fails (`parseInt` yields `NaN`)
is silently dropped — it contributes no indices, whether it is a plain token
or either side of a range token — and no non-numeric value is propagated:
every index the resolver emits from a token satisfies
`0 <= x < totalPages`.  No malformed-input error is signalled; the resolver
is a total function into index sequences. -/
theorem claim1_malformed_dropped (part : List Char) (tp : Nat) :
    (part.contains '-' = false → jsParseInt (trimChars part) = none →
      tokenIndices part tp = []) ∧
    (part.contains '-' = true →
      (jsParseInt (trimChars ((splitOnChar '-' part).getD 0 [])) = none ∨
       jsParseInt (trimChars ((splitOnChar '-' part).getD 1 [])) = none) →
      tokenIndices part tp = []) ∧
    (∀ x ∈ tokenIndices part tp, 0 ≤ x ∧ x < (tp : Int)) :=
  ⟨fun hc h => tokenIndices_nan_plain hc h tp,
   fun hc h => tokenIndices_nan_range hc h tp,
   fun _ hx => mem_tokenIndices hx⟩

/-- C1, witness: the amended theorem applied to the malformed plain token
"abc" and the malformed range token "2-x". -/
theorem claim1_malformed_dropped_witness :
    tokenIndices ("abc".toList) 5 = [] ∧ tokenIndices ("2-x".toList) 5 = [] :=
  ⟨(claim1_malformed_dropped ("abc".toList) 5).1 (by decide) (by decide),
   (claim1_malformed_dropped ("2-x".toList) 5).2.1 (by decide) (Or.inr (by decide))⟩

/-- C2, counterexample: with `totalPages = 0` and an absent expression the
resolver returns `[0]`, not the empty sequence the claim requires. -/
theorem claim2_counterexample : splitPageIndices none 0 ≠ [] := by decide

/-- C2, amended: an absent or empty expression yields the default `[0]`
unconditionally — even when `totalPages = 0`, since the default branch
performs no bounds check — while a present nonempty expression at
`totalPages = 0` yields the empty sequence. -/
theorem claim2_default_selection (tp : Nat) (s : String) :
    splitPageIndices none tp = [0] ∧
    splitPageIndices (some "") tp = [0] ∧
    (s ≠ "" → splitPageIndices (some s) 0 = []) := by
  refine ⟨rfl, rfl, fun hs => ?_⟩
  simp only [splitPageIndices, if_neg hs]
  refine List.flatten_eq_nil_iff.mpr ?_
  intro l hl
  rcases List.mem_map.mp hl with ⟨part, _, rfl⟩
  exact tokenIndices_zero part

/-- C2, witness: the amended theorem applied at `totalPages = 0` with the
nonempty expression "1". -/
theorem claim2_default_selection_witness :
    splitPageIndices none 0 = [0] ∧ splitPageIndices (some "1") 0 = [] :=
  ⟨(claim2_default_selection 0 "1").1,
   (claim2_default_selection 0 "1").2.2 (by decide)⟩

/-- C3, confirmed: a range token "a-b" with `1 <= a <= b` emits exactly the
zero-based indices `i` with `a-1 <= i <= b-1` and `i < totalPages`, in
ascending order (the closed form `range' (a-1) (min b totalPages - (a-1))`),
so out-of-bounds tails are clipped; an out-of-order range emits nothing; and
concretely `resolve("1-100", 5) = [0,1,2,3,4]`. -/
theorem claim3_range_clipping :
    (∀ (sa sb : String) (a b tp : Nat),
        decimalStr sa = some a → decimalStr sb = some b → 1 ≤ a → a ≤ b →
        splitPageIndices (some (sa ++ "-" ++ sb)) tp
          = (List.range' (a - 1) (min b tp - (a - 1))).map Int.ofNat) ∧
    (∀ (sa sb : String) (a b tp : Nat),
        decimalStr sa = some a → decimalStr sb = some b → 1 ≤ a → b < a →
        splitPageIndices (some (sa ++ "-" ++ sb)) tp = []) ∧
    splitPageIndices (some "1-100") 5 = [0, 1, 2, 3, 4] := by
  refine ⟨fun sa sb a b tp hA hB ha _ => splitPageIndices_range_core sa sb a b tp hA hB ha,
    fun sa sb a b tp hA hB ha hba => ?_, by decide⟩
  rw [splitPageIndices_range_core sa sb a b tp hA hB ha]
  have : min b tp - (a - 1) = 0 := by omega
  rw [this]
  rfl

/-- C3, witness: the theorem applied to the token "1-100" on 5 pages and to
the out-of-order token "3-2". -/
theorem claim3_range_clipping_witness :
    splitPageIndices (some ("1" ++ "-" ++ "100")) 5
      = (List.range' 0 (min 100 5 - 0)).map Int.ofNat ∧
    splitPageIndices (some ("3" ++ "-" ++ "2")) 5 = [] :=
  ⟨claim3_range_clipping.1 "1" "100" 1 100 5 (by decide) (by decide) (by decide) (by decide),
   claim3_range_clipping.2.1 "3" "2" 3 2 5 (by decide) (by decide) (by decide) (by decide)⟩

/-- C4, confirmed: the resolver concatenates per-token index lists in token
order; within a range token indices are strictly ascending; and there is no
deduplication and no global sort, e.g. `resolve("3,1", 5) = [2,0]`,
`resolve("3,1-2", 5) = [2,0,1]`, and `resolve("1,1", 5) = [0,0]`. -/
theorem claim4_token_order :
    (∀ (s : String) (tp : Nat), s ≠ "" →
        splitPageIndices (some s) tp
          = ((splitOnChar ',' s.toList).map (fun part => tokenIndices part tp)).flatten) ∧
    (∀ (part : List Char) (tp : Nat), (tokenIndices part tp).Chain' (· < ·)) ∧
    splitPageIndices (some "3,1") 5 = [2, 0] ∧
    splitPageIndices (some "3,1-2") 5 = [2, 0, 1] ∧
    splitPageIndices (some "1,1") 5 = [0, 0] := by
  refine ⟨fun s tp hs => ?_, chain_tokenIndices, by decide, by decide, by decide⟩
  simp only [splitPageIndices, if_neg hs]

/-- C4, witness: the flatten decomposition applied to the expression "3,1". -/
theorem claim4_token_order_witness :
    splitPageIndices (some "3,1") 5
      = ((splitOnChar ',' "3,1".toList).map (fun part => tokenIndices part 5)).flatten :=
  claim4_token_order.1 "3,1" 5 (by decide)

end PdfService
